import Mathlib

/-!
Verification of the Legendre-interval analysis scripts
(`verify_spin_asymmetry.py`, `wronskian_scanner.py`, `topology_scanner.py`,
`dual_weapon.py`).

The scripts scan the "Legendre interval" `I_n = [(n-1)^2, n^2]`:
the spin scanner classifies interior points by their Legendre symbol
modulo `p = 2n-1` (when `p` is prime); the composite-run scanner finds the
longest run of consecutive non-primes and measures its log-volume and
log-radical.  We embed the analysis core faithfully and prove the spec's
testable properties about it.
-/

namespace LegendreSpin

/-! ## Integer Arithmetic Service

Models of the `sympy` primitives the scripts call: `sympy.isprime`,
`sympy.jacobi_symbol` and `sympy.factorint` (used only for the set of
distinct prime factors).  They are modelled by their mathematical
contracts, written with kernel-evaluable decision procedures. -/

/-- Model of `sympy.isprime`: a correct, deterministic primality test,
written as a bounded search so that it evaluates by `decide`. -/
def isprime (m : ℕ) : Bool :=
  decide (2 ≤ m) && (List.range m).all fun d => decide (d ≤ 1) || decide (m % d ≠ 0)

theorem isprime_iff (m : ℕ) : isprime m = true ↔ m.Prime := by
  rw [Nat.prime_def_lt]
  simp only [isprime, Bool.and_eq_true, List.all_eq_true, List.mem_range,
    Bool.or_eq_true, decide_eq_true_eq]
  constructor
  · rintro ⟨h2, hd⟩
    refine ⟨h2, fun d hdm hdvd => ?_⟩
    rcases hd d hdm with h1 | hmod
    · interval_cases d
      · exact absurd (Nat.eq_zero_of_zero_dvd hdvd) (by omega)
      · rfl
    · exact absurd (Nat.dvd_iff_mod_eq_zero.mp hdvd) hmod
  · rintro ⟨h2, hd⟩
    refine ⟨h2, fun d hdm => ?_⟩
    by_cases hdvd : d ∣ m
    · left
      exact le_of_eq (hd d hdm hdvd)
    · right
      intro hmod
      exact hdvd (Nat.dvd_iff_mod_eq_zero.mpr hmod)

/-- Model of `sympy.jacobi_symbol` as the scanners use it: the modulus is
always an odd prime there, where the symbol is the Legendre symbol, computed
here by an exhaustive search for a square root modulo `p`. -/
def jacobi_symbol (a : ℤ) (p : ℕ) : ℤ :=
  if a % (p : ℤ) = 0 then 0
  else if (List.range p).any (fun b => decide (((b : ℤ) * b - a) % (p : ℤ) = 0)) then 1
  else -1

/-- Model of `sympy.factorint(m).keys()`: the set of distinct prime factors. -/
def factorint_keys (m : ℕ) : Finset ℕ := m.primeFactors

/-- Radical of an integer, from `compute_radical` in `dual_weapon.py`
(also `topology_scanner.py`): 1 for `m ≤ 1`, else the product of the
distinct prime factors of `m`. -/
def compute_radical (m : ℕ) : ℕ :=
  if m ≤ 1 then 1 else ∏ q ∈ factorint_keys m, q

/-! ## Spin scanner (`verify_spin_asymmetry.py`) -/

/-- Record returned by `verify_interval` (the dict built at its end). -/
structure SpinResult where
  n : ℕ
  p : ℕ
  missing_residue : ℕ
  N_plus : ℕ
  N_minus : ℕ
  N_zero : ℕ
  expected_plus : ℕ
  expected_minus : ℕ
  gap : ℤ
  theorem_holds : Bool
deriving DecidableEq

/-- Embedding of `verify_interval(n)`: for `p = 2n-1` prime, scan the open
interval `((n-1)^2, n^2)` counting Legendre-symbol spins; otherwise `none`.
The loop `for x in range(start+1, end)` with counter increments becomes
`countP` over `List.range'`. -/
def verify_interval (n : ℕ) : Option SpinResult :=
  let p := 2 * n - 1
  if isprime p then
    let start := (n - 1) ^ 2
    let e := n ^ 2
    let interior := List.range' (start + 1) (e - (start + 1))
    let r := n * n % p
    let n_zero := interior.countP fun x => decide (x % p = 0)
    let n_plus := interior.countP fun x =>
      decide (x % p ≠ 0) && decide (jacobi_symbol (x % p : ℕ) p = 1)
    let n_minus := interior.countP fun x =>
      decide (x % p ≠ 0) && decide (jacobi_symbol (x % p : ℕ) p = -1)
    let expected_plus := (p - 3) / 2
    let expected_minus := (p - 1) / 2
    let expected_zero := 1
    some
      { n := n
        p := p
        missing_residue := r
        N_plus := n_plus
        N_minus := n_minus
        N_zero := n_zero
        expected_plus := expected_plus
        expected_minus := expected_minus
        gap := (n_minus : ℤ) - (n_plus : ℤ)
        theorem_holds :=
          decide (n_plus = expected_plus) && decide (n_minus = expected_minus) &&
            decide (n_zero = expected_zero) }
  else none

/-- Embedding of the accumulation in `main` of `verify_spin_asymmetry.py`:
`for n in range(2, limit+1)`, count the qualifying intervals (`total`) and
those where the theorem holds (`holds`). -/
def main_counts (limit : ℕ) : ℕ × ℕ :=
  (List.range' 2 (limit - 1)).foldl
    (fun acc n =>
      match verify_interval n with
      | none => acc
      | some res => (acc.1 + 1, if res.theorem_holds then acc.2 + 1 else acc.2))
    (0, 0)

/-! ## Composite run finder and Wronskian ratio (`wronskian_scanner.py`) -/

/-- One iteration of the loop body of `find_max_composite_gap`: extend the
current run on a non-prime, otherwise close it, keeping it as the best run
only when strictly longer than the best so far. -/
def gap_step (acc : List ℕ × List ℕ) (x : ℕ) : List ℕ × List ℕ :=
  if !isprime x then (acc.1, acc.2 ++ [x])
  else if acc.1.length < acc.2.length then (acc.2, []) else (acc.1, [])

/-- State `(max_gap, current_gap)` after the loop of
`find_max_composite_gap(n)` over `range(start, end + 1)`. -/
def scan_state (n : ℕ) : List ℕ × List ℕ :=
  (List.range' ((n - 1) ^ 2) (n ^ 2 + 1 - (n - 1) ^ 2)).foldl gap_step ([], [])

/-- Embedding of `find_max_composite_gap(n)`: the longest run of consecutive
non-primes in the closed interval `[(n-1)^2, n^2]`, with the final comparison
after the loop for a run ending at `n^2`. -/
def find_max_composite_gap (n : ℕ) : List ℕ :=
  if (scan_state n).1.length < (scan_state n).2.length then (scan_state n).2
  else (scan_state n).1

/-- The set `all_primes` built by `compute_wronskian`: the union of the
distinct prime factors of the members. -/
def all_primes (composites : List ℕ) : Finset ℕ :=
  composites.foldl (fun s c => s ∪ factorint_keys c) ∅

/-- The accumulated `log_volume` of `compute_wronskian`: the sum of the
natural logs of the members. -/
noncomputable def log_volume (composites : List ℕ) : ℝ :=
  (composites.map fun c : ℕ => Real.log c).sum

/-- The accumulated `log_radical` of `compute_wronskian`: the sum of the
natural logs of the distinct prime factors of the members. -/
noncomputable def log_radical (composites : List ℕ) : ℝ :=
  ∑ q ∈ all_primes composites, Real.log q

/-- Value of the ratio `q_W`: an ordinary real, or the `float(\x27inf\x27)`
sentinel produced when `log_radical` is not positive. -/
inductive QW
  | val (x : ℝ)
  | inf

open Classical in
/-- Embedding of `compute_wronskian(composites)`: `none` models the
`(None, None, None)` return on an empty list; otherwise the triple
`(log_volume, log_radical, q_W)` with the guarded division. -/
noncomputable def compute_wronskian (composites : List ℕ) : Option (ℝ × ℝ × QW) :=
  if composites = [] then none
  else
    some (log_volume composites, log_radical composites,
      if 0 < log_radical composites then
        QW.val (log_volume composites / log_radical composites)
      else QW.inf)

/-- Composite number in the usual sense: at least 2 and not prime (so 0 and 1
are neither prime nor composite). -/
def IsComposite (m : ℕ) : Prop := 2 ≤ m ∧ ¬m.Prime

instance (m : ℕ) : Decidable (IsComposite m) := by
  unfold IsComposite
  infer_instance

/-! ## Counting machinery for the spin scan -/

theorem countP_range' (f : ℕ → Bool) (a k : ℕ) :
    (List.range' a k).countP f = ((Finset.Ico a (a + k)).filter fun x => f x = true).card := by
  induction k with
  | zero => simp
  | succ k ih =>
    rw [List.range'_1_concat, List.countP_append, ih,
      show a + (k + 1) = (a + k) + 1 by omega,
      Nat.Ico_succ_right_eq_insert_Ico (by omega), Finset.filter_insert]
    by_cases h : f (a + k) = true
    · rw [if_pos h, Finset.card_insert_of_not_mem (by simp [Finset.mem_filter])]
      simp [List.countP_cons, h]
    · rw [if_neg h]
      simp [List.countP_cons, h]

theorem jacobi_symbol_eq_quadraticChar (p : ℕ) [Fact p.Prime] (a : ℤ) :
    jacobi_symbol a p = quadraticChar (ZMod p) (a : ZMod p) := by
  have hp : p.Prime := Fact.out
  have hzero : a % (p : ℤ) = 0 ↔ ((a : ZMod p) = 0) := by
    rw [ZMod.intCast_zmod_eq_zero_iff_dvd, Int.dvd_iff_emod_eq_zero]
  have hsq : (((List.range p).any fun b => decide (((b : ℤ) * b - a) % (p : ℤ) = 0)) = true)
      ↔ IsSquare ((a : ℤ) : ZMod p) := by
    simp only [List.any_eq_true, List.mem_range, decide_eq_true_eq]
    constructor
    · rintro ⟨b, _, hb⟩
      have h0 : (((b : ℤ) * b - a : ℤ) : ZMod p) = 0 := by
        rw [ZMod.intCast_zmod_eq_zero_iff_dvd, Int.dvd_iff_emod_eq_zero]
        exact hb
      push_cast at h0
      exact ⟨(b : ZMod p), (sub_eq_zero.mp h0).symm⟩
    · rintro ⟨r, hr⟩
      refine ⟨r.val, ZMod.val_lt r, ?_⟩
      rw [← Int.dvd_iff_emod_eq_zero, ← ZMod.intCast_zmod_eq_zero_iff_dvd]
      push_cast
      rw [ZMod.natCast_zmod_val, hr, sub_self]
  by_cases h0 : a % (p : ℤ) = 0
  · rw [jacobi_symbol, if_pos h0, hzero.mp h0]
    exact (quadraticChar_zero).symm
  · rw [jacobi_symbol, if_neg h0]
    have ha : ((a : ℤ) : ZMod p) ≠ 0 := fun h => h0 (hzero.mpr h)
    by_cases hs : IsSquare ((a : ℤ) : ZMod p)
    · rw [if_pos (hsq.mpr hs)]
      exact ((quadraticChar_one_iff_isSquare ha).mpr hs).symm
    · rw [if_neg (fun hh => hs (hsq.mp hh))]
      exact (quadraticChar_neg_one_iff_not_isSquare.mpr hs).symm

theorem quadraticChar_counts (p : ℕ) [Fact p.Prime] (hodd : p ≠ 2) :
    ((Finset.univ.filter fun a : ZMod p => quadraticChar (ZMod p) a = 1).card = (p - 1) / 2)
      ∧ ((Finset.univ.filter fun a : ZMod p => quadraticChar (ZMod p) a = -1).card
          = (p - 1) / 2) := by
  have hp : p.Prime := Fact.out
  have hchar : ringChar (ZMod p) ≠ 2 := by rw [ZMod.ringChar_zmod_n]; exact hodd
  have hsum := quadraticChar_sum_zero hchar
  have hsplit := Finset.sum_filter_add_sum_filter_not Finset.univ
    (fun a : ZMod p => quadraticChar (ZMod p) a = 1) (fun a => quadraticChar (ZMod p) a)
  have h1 : ∑ a ∈ Finset.univ.filter (fun a : ZMod p => quadraticChar (ZMod p) a = 1),
      quadraticChar (ZMod p) a
      = ((Finset.univ.filter fun a : ZMod p => quadraticChar (ZMod p) a = 1).card : ℤ) := by
    rw [Finset.sum_congr rfl fun x hx => (Finset.mem_filter.mp hx).2]
    simp
  have hfneg : Finset.univ.filter (fun a : ZMod p => ¬quadraticChar (ZMod p) a = 1)
      = insert (0 : ZMod p)
          (Finset.univ.filter fun a : ZMod p => quadraticChar (ZMod p) a = -1) := by
    ext a
    simp only [Finset.mem_filter, Finset.mem_univ, true_and, Finset.mem_insert]
    constructor
    · intro h
      by_cases ha : a = 0
      · exact Or.inl ha
      · exact Or.inr ((or_iff_right h).mp (quadraticChar_dichotomy ha))
    · rintro (rfl | h)
      · rw [quadraticChar_zero]; omega
      · rw [h]; omega
  have h0notmem : (0 : ZMod p) ∉
      Finset.univ.filter fun a : ZMod p => quadraticChar (ZMod p) a = -1 := by
    simp only [Finset.mem_filter, Finset.mem_univ, true_and, quadraticChar_zero]
    omega
  have h2 : ∑ a ∈ Finset.univ.filter (fun a : ZMod p => ¬quadraticChar (ZMod p) a = 1),
      quadraticChar (ZMod p) a
      = -((Finset.univ.filter fun a : ZMod p => quadraticChar (ZMod p) a = -1).card : ℤ) := by
    rw [hfneg, Finset.sum_insert h0notmem, quadraticChar_zero, zero_add,
      Finset.sum_congr rfl fun x hx => (Finset.mem_filter.mp hx).2]
    simp
  have hcards := Finset.filter_card_add_filter_neg_card_eq_card
    (s := (Finset.univ : Finset (ZMod p)))
    (p := fun a : ZMod p => quadraticChar (ZMod p) a = 1)
  have hcard_univ : (Finset.univ : Finset (ZMod p)).card = p := by
    rw [Finset.card_univ, ZMod.card]
  have hcard_insert : (Finset.univ.filter
        fun a : ZMod p => ¬quadraticChar (ZMod p) a = 1).card
      = (Finset.univ.filter fun a : ZMod p => quadraticChar (ZMod p) a = -1).card + 1 := by
    rw [hfneg, Finset.card_insert_of_not_mem h0notmem]
  have hodd2 : p % 2 = 1 := Nat.odd_iff.mp (hp.odd_of_ne_two hodd)
  rw [h1, h2, hsum] at hsplit
  rw [hcard_insert, hcard_univ] at hcards
  constructor <;> omega

theorem interior_filter_card (p s : ℕ) [Fact p.Prime]
    (P : ZMod p → Prop) [DecidablePred P] (f : ℕ → Bool)
    (hf : ∀ x, f x = true ↔ P (x : ZMod p)) :
    (List.range' (s + 1) (p - 1)).countP f
      = ((Finset.univ.erase ((s : ℕ) : ZMod p)).filter P).card := by
  have hp : p.Prime := Fact.out
  have hp2 : 2 ≤ p := hp.two_le
  rw [countP_range', show s + 1 + (p - 1) = s + p by omega]
  have hinj : Set.InjOn (fun x : ℕ => (x : ZMod p)) ↑(Finset.Ico (s + 1) (s + p)) := by
    intro x hx y hy hxy
    simp only [Finset.coe_Ico, Set.mem_Ico] at hx hy
    have hmod := (ZMod.natCast_eq_natCast_iff x y p).mp hxy
    rcases le_total x y with h | h
    · have hd : p ∣ y - x := (Nat.modEq_iff_dvd' h).mp hmod
      rcases Nat.eq_zero_or_pos (y - x) with h0 | h0
      · omega
      · have := Nat.le_of_dvd h0 hd
        omega
    · have hd : p ∣ x - y := (Nat.modEq_iff_dvd' h).mp hmod.symm
      rcases Nat.eq_zero_or_pos (x - y) with h0 | h0
      · omega
      · have := Nat.le_of_dvd h0 hd
        omega
  have hsnot : ((s : ℕ) : ZMod p)
      ∉ (Finset.Ico (s + 1) (s + p)).image (fun x : ℕ => (x : ZMod p)) := by
    intro hmem
    rcases Finset.mem_image.mp hmem with ⟨x, hx, hcast⟩
    simp only [Finset.mem_Ico] at hx
    have hmod := (ZMod.natCast_eq_natCast_iff x s p).mp hcast
    have hd : p ∣ x - s := (Nat.modEq_iff_dvd' (by omega)).mp hmod.symm
    have h0 : 0 < x - s := by omega
    have := Nat.le_of_dvd h0 hd
    omega
  have hcard : ((Finset.Ico (s + 1) (s + p)).image (fun x : ℕ => (x : ZMod p))).card
      = p - 1 := by
    rw [Finset.card_image_of_injOn hinj, Nat.card_Ico]
    omega
  have hTeq : (Finset.Ico (s + 1) (s + p)).image (fun x : ℕ => (x : ZMod p))
      = Finset.univ.erase ((s : ℕ) : ZMod p) := by
    apply Finset.eq_of_subset_of_card_le
    · intro a ha
      exact Finset.mem_erase.mpr ⟨fun h => hsnot (h ▸ ha), Finset.mem_univ a⟩
    · rw [hcard, Finset.card_erase_of_mem (Finset.mem_univ _), Finset.card_univ, ZMod.card]
  rw [← hTeq, Finset.filter_image,
    Finset.card_image_of_injOn (hinj.mono (by
      rw [Finset.coe_subset]
      exact Finset.filter_subset _ _))]
  exact congrArg Finset.card (Finset.filter_congr fun x _ => by rw [hf x])

theorem sq_cast_ne_zero (m : ℕ) (hm : 1 ≤ m) [Fact ((2 * m + 1).Prime)] :
    ((m ^ 2 : ℕ) : ZMod (2 * m + 1)) ≠ 0
      ∧ quadraticChar (ZMod (2 * m + 1)) ((m ^ 2 : ℕ) : ZMod (2 * m + 1)) = 1 := by
  have hmbar : ((m : ℕ) : ZMod (2 * m + 1)) ≠ 0 := by
    rw [Ne, ZMod.natCast_zmod_eq_zero_iff_dvd]
    intro hd
    have := Nat.le_of_dvd (by omega) hd
    omega
  have hsq : ((m ^ 2 : ℕ) : ZMod (2 * m + 1))
      = ((m : ℕ) : ZMod (2 * m + 1)) * ((m : ℕ) : ZMod (2 * m + 1)) := by
    push_cast
    ring
  have hne : ((m ^ 2 : ℕ) : ZMod (2 * m + 1)) ≠ 0 := by
    rw [hsq]
    exact mul_ne_zero hmbar hmbar
  refine ⟨hne, ?_⟩
  exact (quadraticChar_one_iff_isSquare hne).mpr ⟨_, hsq⟩

theorem spin_countP (m : ℕ) (hm : 1 ≤ m) (hp : (2 * m + 1).Prime) :
    ((List.range' (m ^ 2 + 1) (2 * m)).countP fun x => decide (x % (2 * m + 1) = 0)) = 1
      ∧ ((List.range' (m ^ 2 + 1) (2 * m)).countP fun x =>
          decide (x % (2 * m + 1) ≠ 0)
            && decide (jacobi_symbol (x % (2 * m + 1) : ℕ) (2 * m + 1) = 1)) = m - 1
      ∧ ((List.range' (m ^ 2 + 1) (2 * m)).countP fun x =>
          decide (x % (2 * m + 1) ≠ 0)
            && decide (jacobi_symbol (x % (2 * m + 1) : ℕ) (2 * m + 1) = -1)) = m := by
  haveI : Fact ((2 * m + 1).Prime) := ⟨hp⟩
  have hodd : 2 * m + 1 ≠ 2 := by omega
  obtain ⟨hne, hchi⟩ := sq_cast_ne_zero m hm
  have hcast_mod : ∀ x : ℕ, (((x % (2 * m + 1) : ℕ) : ℤ) : ZMod (2 * m + 1))
      = ((x : ℕ) : ZMod (2 * m + 1)) := by
    intro x
    rw [Int.cast_natCast, ZMod.natCast_mod]
  have hmod_zero : ∀ x : ℕ, x % (2 * m + 1) = 0 ↔ ((x : ℕ) : ZMod (2 * m + 1)) = 0 := by
    intro x
    rw [ZMod.natCast_zmod_eq_zero_iff_dvd, Nat.dvd_iff_mod_eq_zero]
  refine ⟨?_, ?_, ?_⟩
  · have hc := interior_filter_card (2 * m + 1) (m ^ 2) (fun a => a = 0)
      (fun x => decide (x % (2 * m + 1) = 0))
      (fun x => by rw [decide_eq_true_eq, hmod_zero x])
    rw [show (2 * m + 1) - 1 = 2 * m by omega] at hc
    rw [hc]
    rw [Finset.filter_erase, Finset.filter_eq', if_pos (Finset.mem_univ _),
      Finset.erase_eq_of_not_mem (by rw [Finset.mem_singleton]; exact hne)]
    exact Finset.card_singleton _
  · have hc := interior_filter_card (2 * m + 1) (m ^ 2)
      (fun a => quadraticChar (ZMod (2 * m + 1)) a = 1)
      (fun x => decide (x % (2 * m + 1) ≠ 0)
        && decide (jacobi_symbol (x % (2 * m + 1) : ℕ) (2 * m + 1) = 1))
      (fun x => by
        rw [Bool.and_eq_true, decide_eq_true_eq, decide_eq_true_eq,
          jacobi_symbol_eq_quadraticChar, hcast_mod x]
        constructor
        · rintro ⟨_, h⟩
          exact h
        · intro h
          refine ⟨fun h0 => ?_, h⟩
          rw [hmod_zero x] at h0
          rw [h0, quadraticChar_zero] at h
          exact absurd h (by decide))
    rw [show (2 * m + 1) - 1 = 2 * m by omega] at hc
    rw [hc]
    have hmem : ((m ^ 2 : ℕ) : ZMod (2 * m + 1)) ∈ Finset.univ.filter
        (fun a => quadraticChar (ZMod (2 * m + 1)) a = 1) :=
      Finset.mem_filter.mpr ⟨Finset.mem_univ _, hchi⟩
    rw [Finset.filter_erase, Finset.card_erase_of_mem hmem,
      (quadraticChar_counts (2 * m + 1) hodd).1]
    omega
  · have hc := interior_filter_card (2 * m + 1) (m ^ 2)
      (fun a => quadraticChar (ZMod (2 * m + 1)) a = -1)
      (fun x => decide (x % (2 * m + 1) ≠ 0)
        && decide (jacobi_symbol (x % (2 * m + 1) : ℕ) (2 * m + 1) = -1))
      (fun x => by
        rw [Bool.and_eq_true, decide_eq_true_eq, decide_eq_true_eq,
          jacobi_symbol_eq_quadraticChar, hcast_mod x]
        constructor
        · rintro ⟨_, h⟩
          exact h
        · intro h
          refine ⟨fun h0 => ?_, h⟩
          rw [hmod_zero x] at h0
          rw [h0, quadraticChar_zero] at h
          exact absurd h (by decide))
    rw [show (2 * m + 1) - 1 = 2 * m by omega] at hc
    rw [hc]
    rw [Finset.filter_erase,
      Finset.erase_eq_of_not_mem (fun hmem => by
        have := (Finset.mem_filter.mp hmem).2
        rw [hchi] at this
        exact absurd this (by decide)),
      (quadraticChar_counts (2 * m + 1) hodd).2]
    omega

theorem verify_interval_eq_aux (m : ℕ) (hm : 1 ≤ m) (hp : (2 * m + 1).Prime) :
    verify_interval (m + 1) = some
      { n := m + 1
        p := 2 * m + 1
        missing_residue := (m + 1) * (m + 1) % (2 * m + 1)
        N_plus := m - 1
        N_minus := m
        N_zero := 1
        expected_plus := m - 1
        expected_minus := m
        gap := 1
        theorem_holds := true } := by
  obtain ⟨hz, hplus, hminus⟩ := spin_countP m hm hp
  have hprime : isprime (2 * (m + 1) - 1) = true := by
    rw [show 2 * (m + 1) - 1 = 2 * m + 1 by omega]
    exact (isprime_iff _).mpr hp
  simp only [verify_interval, hprime, if_true]
  rw [show 2 * (m + 1) - 1 = 2 * m + 1 by omega, show m + 1 - 1 = m by omega,
    show (m + 1) ^ 2 - (m ^ 2 + 1) = 2 * m by ring_nf; omega]
  rw [hz, hplus, hminus]
  rw [show (2 * m + 1 - 3) / 2 = m - 1 by omega, show (2 * m + 1 - 1) / 2 = m by omega]
  have hgap : (m : ℤ) - ((m - 1 : ℕ) : ℤ) = 1 := by omega
  simp [SpinResult.mk.injEq, hgap]

theorem verify_interval_eq (n : ℕ) (hn : 2 ≤ n) (hp : (2 * n - 1).Prime) :
    verify_interval n = some
      { n := n
        p := 2 * n - 1
        missing_residue := n * n % (2 * n - 1)
        N_plus := ((2 * n - 1) - 3) / 2
        N_minus := ((2 * n - 1) - 1) / 2
        N_zero := 1
        expected_plus := ((2 * n - 1) - 3) / 2
        expected_minus := ((2 * n - 1) - 1) / 2
        gap := 1
        theorem_holds := true } := by
  obtain ⟨m, rfl⟩ : ∃ m, n = m + 1 := ⟨n - 1, by omega⟩
  have hm : 1 ≤ m := by omega
  have hp2 : (2 * m + 1).Prime := by
    rw [show 2 * m + 1 = 2 * (m + 1) - 1 by omega]
    exact hp
  rw [show 2 * (m + 1) - 1 = 2 * m + 1 by omega,
    show (2 * m + 1 - 3) / 2 = m - 1 by omega, show (2 * m + 1 - 1) / 2 = m by omega]
  exact verify_interval_eq_aux m hm hp2

theorem main_counts_aux (l : List ℕ) (acc : ℕ × ℕ) :
    ((l.foldl
        (fun acc n =>
          match verify_interval n with
          | none => acc
          | some res => (acc.1 + 1, if res.theorem_holds then acc.2 + 1 else acc.2))
        acc).1)
      = acc.1 + ((l.filter fun k => (verify_interval k).isSome).length) := by
  induction l generalizing acc with
  | nil => simp
  | cons x xs ih =>
    rw [List.foldl_cons, List.filter_cons]
    cases hx : verify_interval x with
    | none => simp only [hx, Option.isSome_none, Bool.false_eq_true, if_false, ih]
    | some res =>
      simp only [hx, Option.isSome_some, if_true, ih, List.length_cons]
      omega

/-- C1: for every `n ≥ 2` with `p = 2n-1` prime, `verify_interval` returns a
tally with `N_plus + N_minus + N_zero = p - 1`, `N_zero = 1`,
`N_minus - N_plus = 1`, `N_plus = (p-3)/2`, `N_minus = (p-1)/2`, and the
returned `theorem_holds` flag is true. -/
theorem C1_spin_asymmetry (n : ℕ) (hn : 2 ≤ n) (hp : (2 * n - 1).Prime) :
    ∃ res : SpinResult, verify_interval n = some res
      ∧ res.N_plus + res.N_minus + res.N_zero = (2 * n - 1) - 1
      ∧ res.N_zero = 1
      ∧ (res.N_minus : ℤ) - (res.N_plus : ℤ) = 1
      ∧ res.N_plus = ((2 * n - 1) - 3) / 2
      ∧ res.N_minus = ((2 * n - 1) - 1) / 2
      ∧ res.theorem_holds = true := by
  refine ⟨_, verify_interval_eq n hn hp, ?_, rfl, ?_, rfl, rfl, rfl⟩
  · dsimp only
    omega
  · dsimp only
    omega

/-- Witness for C1 at the concrete input `n = 3` (`p = 5`). -/
theorem C1_spin_asymmetry_witness :
    ∃ res : SpinResult, verify_interval 3 = some res
      ∧ res.N_plus + res.N_minus + res.N_zero = (2 * 3 - 1) - 1
      ∧ res.N_zero = 1
      ∧ (res.N_minus : ℤ) - (res.N_plus : ℤ) = 1
      ∧ res.N_plus = ((2 * 3 - 1) - 3) / 2
      ∧ res.N_minus = ((2 * 3 - 1) - 1) / 2
      ∧ res.theorem_holds = true :=
  C1_spin_asymmetry 3 (by decide) (by decide)

/-- C7: at the concrete input `n = 2` (`p = 3`, interior `{2, 3}`),
`verify_interval` returns the tally `N_plus = 0`, `N_minus = 1`,
`N_zero = 1` with `gap = 1`, matching the predictions `(p-3)/2 = 0` and
`(p-1)/2 = 1`, and `theorem_holds` is true. -/
theorem C7_concrete_n2 :
    verify_interval 2 = some
      { n := 2
        p := 3
        missing_residue := 1
        N_plus := 0
        N_minus := 1
        N_zero := 1
        expected_plus := 0
        expected_minus := 1
        gap := 1
        theorem_holds := true } := by
  decide

/-- C6: when `2n-1` is not prime the spin scan is skipped rather than treated
as an error: `verify_interval n = none`, and for every batch limit the
driver's `total` counts exactly the intervals whose scan returned a result,
a list that never contains `n`. -/
theorem C6_nonprime_skipped (n : ℕ) (h : ¬(2 * n - 1).Prime) :
    verify_interval n = none
      ∧ ∀ limit : ℕ,
          (main_counts limit).1
            = ((List.range' 2 (limit - 1)).filter fun k => (verify_interval k).isSome).length
          ∧ n ∉ (List.range' 2 (limit - 1)).filter fun k => (verify_interval k).isSome := by
  have hfalse : isprime (2 * n - 1) = false :=
    Bool.eq_false_iff.mpr fun ht => h ((isprime_iff _).mp ht)
  have hnone : verify_interval n = none := by
    simp [verify_interval, hfalse]
  refine ⟨hnone, fun limit => ⟨?_, ?_⟩⟩
  · rw [main_counts, main_counts_aux]
    omega
  · intro hmem
    have hs := (List.mem_filter.mp hmem).2
    rw [hnone] at hs
    simp at hs

/-- Witness for C6 at the concrete input `n = 20` (`2n-1 = 39 = 3 * 13`). -/
theorem C6_nonprime_skipped_witness :
    verify_interval 20 = none
      ∧ ∀ limit : ℕ,
          (main_counts limit).1
            = ((List.range' 2 (limit - 1)).filter fun k => (verify_interval k).isSome).length
          ∧ 20 ∉ (List.range' 2 (limit - 1)).filter fun k => (verify_interval k).isSome :=
  C6_nonprime_skipped 20 (by decide)

/-- C8: the spin scanner and the composite-run finder are deterministic pure
functions of `n` alone: results of two runs agree whenever the argument is
the same, with no dependence on any other state (both are state-free
functions in this embedding, exactly as the scripts read no mutable state). -/
theorem C8_deterministic (n₁ n₂ : ℕ) (h : n₁ = n₂) :
    verify_interval n₁ = verify_interval n₂
      ∧ find_max_composite_gap n₁ = find_max_composite_gap n₂ :=
  ⟨by rw [h], by rw [h]⟩

/-- Witness for C8 at the concrete input `n = 5`. -/
theorem C8_deterministic_witness :
    verify_interval 5 = verify_interval 5
      ∧ find_max_composite_gap 5 = find_max_composite_gap 5 :=
  C8_deterministic 5 5 rfl

/-! ## Invariant of the composite-run scan -/

theorem headI_range' (a len : ℕ) (h : 0 < len) : (List.range' a len).headI = a := by
  cases len with
  | zero => omega
  | succ j => rw [List.range'_succ]; rfl

theorem run_no_prime (b len pos : ℕ)
    (hrun : ∀ i, i < len → isprime (b + i) = false)
    (hprime : isprime pos = true) (h1 : b ≤ pos) (h2 : pos < b + len) : False := by
  have hfalse := hrun (pos - b) (by omega)
  rw [show b + (pos - b) = pos by omega, hprime] at hfalse
  cases hfalse

/-- Invariant of the state `(mx, cur)` of the composite-run scan after the
first `k` cells of the closed interval starting at `s` have been processed:
`cur` is the maximal non-prime suffix of the processed prefix, and `mx` is
the earliest-occurring longest completed run. -/
structure ScanInv (s k : ℕ) (mx cur : List ℕ) : Prop where
  cur_eq : cur = List.range' (s + k - cur.length) cur.length
  cur_le : cur.length ≤ k
  cur_np : ∀ x ∈ cur, isprime x = false
  cur_edge : cur.length = k ∨ isprime (s + k - cur.length - 1) = true
  mx_spec : mx = [] ∨
    (mx = List.range' mx.headI mx.length
      ∧ s ≤ mx.headI
      ∧ mx.headI + mx.length < s + k - cur.length
      ∧ (∀ x ∈ mx, isprime x = false)
      ∧ (mx.headI = s ∨ isprime (mx.headI - 1) = true)
      ∧ isprime (mx.headI + mx.length) = true)
  longest : ∀ b len : ℕ, (∀ i, i < len → isprime (b + i) = false) →
    s ≤ b → b + len ≤ s + k → len ≤ max mx.length cur.length
  completed_longest : ∀ b len : ℕ, (∀ i, i < len → isprime (b + i) = false) →
    s ≤ b → b + len ≤ s + k - cur.length → len ≤ mx.length
  completed_earliest : ∀ b len : ℕ, (∀ i, i < len → isprime (b + i) = false) →
    s ≤ b → b + len ≤ s + k - cur.length → mx.length ≤ len → 0 < len →
    mx.headI ≤ b

theorem scan_inv_zero (s : ℕ) : ScanInv s 0 [] [] := by
  refine ⟨rfl, Nat.le_refl 0, ?_, Or.inl rfl, Or.inl rfl, ?_, ?_, ?_⟩
  · intro x hx
    cases hx
  · intro b len _ hb hle
    simp only [List.length_nil, Nat.max_self]
    omega
  · intro b len _ hb hle
    simp only [List.length_nil]
    simp only [List.length_nil, Nat.add_zero, Nat.sub_zero] at hle
    omega
  · intro b len _ hb hle _ hpos
    simp only [List.length_nil, Nat.add_zero, Nat.sub_zero] at hle
    omega

theorem scan_inv_step_nonprime (s k : ℕ) (mx cur : List ℕ)
    (h : ScanInv s k mx cur) (hx : isprime (s + k) = false) :
    ScanInv s (k + 1) mx (cur ++ [s + k]) := by
  obtain ⟨c_eq, c_le, c_np, c_edge, m_spec, long, comp_long, comp_early⟩ := h
  have hlen : (cur ++ [s + k]).length = cur.length + 1 := by simp
  have hidx : s + (k + 1) - (cur.length + 1) = s + k - cur.length := by omega
  refine ⟨?_, ?_, ?_, ?_, ?_, ?_, ?_, ?_⟩
  · rw [hlen, hidx, List.range'_1_concat,
      show s + k - cur.length + cur.length = s + k by omega, ← c_eq]
  · rw [hlen]
    omega
  · intro x hxm
    rcases List.mem_append.mp hxm with hm | hm
    · exact c_np x hm
    · rw [List.mem_singleton.mp hm]
      exact hx
  · rw [hlen]
    rcases c_edge with hck | hpr
    · exact Or.inl (by omega)
    · refine Or.inr ?_
      rw [show s + (k + 1) - (cur.length + 1) - 1 = s + k - cur.length - 1 by omega]
      exact hpr
  · rw [hlen]
    rcases m_spec with hm | ⟨e1, e2, e3, e4, e5, e6⟩
    · exact Or.inl hm
    · exact Or.inr ⟨e1, e2, by omega, e4, e5, e6⟩
  · intro b len hrun hb hle
    rw [hlen]
    rcases Nat.eq_zero_or_pos len with h0 | hpos
    · omega
    by_cases hend : b + len ≤ s + k
    · have := long b len hrun hb hend
      have hmx : max mx.length cur.length ≤ max mx.length (cur.length + 1) :=
        max_le_max (Nat.le_refl _) (by omega)
      omega
    · have hbge : s + k - cur.length ≤ b := by
        by_contra hlt
        push_neg at hlt
        have hcnek : cur.length ≠ k := by
          intro hck
          rw [hck] at hlt
          omega
        have hpr := c_edge.resolve_left hcnek
        exact run_no_prime b len (s + k - cur.length - 1) hrun hpr (by omega) (by omega)
      have hlc : len ≤ cur.length + 1 := by omega
      have := Nat.le_max_right mx.length (cur.length + 1)
      omega
  · intro b len hrun hb hle
    rw [hlen] at hle
    exact comp_long b len hrun hb (by omega)
  · intro b len hrun hb hle hge hpos
    rw [hlen] at hle
    exact comp_early b len hrun hb (by omega) hge hpos

theorem scan_inv_step_prime_new (s k : ℕ) (mx cur : List ℕ)
    (h : ScanInv s k mx cur) (hx : isprime (s + k) = true)
    (hcmp : mx.length < cur.length) :
    ScanInv s (k + 1) cur [] := by
  obtain ⟨c_eq, c_le, c_np, c_edge, m_spec, long, comp_long, comp_early⟩ := h
  have hpos : 0 < cur.length := by omega
  have hhead : cur.headI = s + k - cur.length := by
    conv_lhs => rw [c_eq]
    rw [headI_range' _ _ hpos]
  refine ⟨rfl, Nat.zero_le _, ?_, ?_, ?_, ?_, ?_, ?_⟩
  · intro x hxm
    cases hxm
  · simp only [List.length_nil]
    right
    rw [show s + (k + 1) - 0 - 1 = s + k by omega]
    exact hx
  · right
    refine ⟨?_, ?_, ?_, c_np, ?_, ?_⟩
    · rw [hhead]
      exact c_eq
    · rw [hhead]
      omega
    · simp only [List.length_nil]
      rw [hhead]
      omega
    · rcases c_edge with hck | hpr
      · left
        rw [hhead]
        omega
      · right
        rw [hhead]
        exact hpr
    · rw [hhead, show s + k - cur.length + cur.length = s + k by omega]
      exact hx
  · intro b len hrun hb hle
    simp only [List.length_nil]
    rcases Nat.eq_zero_or_pos len with h0 | hlpos
    · omega
    have hend : b + len ≤ s + k := by
      by_contra hcon
      push_neg at hcon
      exact run_no_prime b len (s + k) hrun hx (by omega) (by omega)
    have hlong := long b len hrun hb hend
    have hmax : max mx.length cur.length = cur.length := Nat.max_eq_right (by omega)
    have := Nat.le_max_left cur.length 0
    omega
  · intro b len hrun hb hle
    simp only [List.length_nil] at hle
    rcases Nat.eq_zero_or_pos len with h0 | hlpos
    · omega
    have hend : b + len ≤ s + k := by
      by_contra hcon
      push_neg at hcon
      exact run_no_prime b len (s + k) hrun hx (by omega) (by omega)
    have hlong := long b len hrun hb hend
    have hmax : max mx.length cur.length = cur.length := Nat.max_eq_right (by omega)
    omega
  · intro b len hrun hb hle hge hlpos
    simp only [List.length_nil] at hle
    rw [hhead]
    have hend : b + len ≤ s + k := by
      by_contra hcon
      push_neg at hcon
      exact run_no_prime b len (s + k) hrun hx (by omega) (by omega)
    by_contra hlt
    push_neg at hlt
    by_cases hreg : b + len ≤ s + k - cur.length
    · have := comp_long b len hrun hb hreg
      omega
    · push_neg at hreg
      have hcnek : cur.length ≠ k := by
        intro hck
        rw [hck] at hlt
        omega
      have hpr := c_edge.resolve_left hcnek
      exact run_no_prime b len (s + k - cur.length - 1) hrun hpr (by omega) (by omega)

theorem scan_inv_step_prime_keep (s k : ℕ) (mx cur : List ℕ)
    (h : ScanInv s k mx cur) (hx : isprime (s + k) = true)
    (hcmp : ¬mx.length < cur.length) :
    ScanInv s (k + 1) mx [] := by
  obtain ⟨c_eq, c_le, c_np, c_edge, m_spec, long, comp_long, comp_early⟩ := h
  refine ⟨rfl, Nat.zero_le _, ?_, ?_, ?_, ?_, ?_, ?_⟩
  · intro x hxm
    cases hxm
  · simp only [List.length_nil]
    right
    rw [show s + (k + 1) - 0 - 1 = s + k by omega]
    exact hx
  · rcases m_spec with hm | ⟨e1, e2, e3, e4, e5, e6⟩
    · exact Or.inl hm
    · refine Or.inr ⟨e1, e2, ?_, e4, e5, e6⟩
      simp only [List.length_nil]
      omega
  · intro b len hrun hb hle
    simp only [List.length_nil]
    rcases Nat.eq_zero_or_pos len with h0 | hlpos
    · omega
    have hend : b + len ≤ s + k := by
      by_contra hcon
      push_neg at hcon
      exact run_no_prime b len (s + k) hrun hx (by omega) (by omega)
    have hlong := long b len hrun hb hend
    have hmax : max mx.length cur.length = mx.length := Nat.max_eq_left (by omega)
    have := Nat.le_max_left mx.length 0
    omega
  · intro b len hrun hb hle
    simp only [List.length_nil] at hle
    rcases Nat.eq_zero_or_pos len with h0 | hlpos
    · omega
    have hend : b + len ≤ s + k := by
      by_contra hcon
      push_neg at hcon
      exact run_no_prime b len (s + k) hrun hx (by omega) (by omega)
    have hlong := long b len hrun hb hend
    have hmax : max mx.length cur.length = mx.length := Nat.max_eq_left (by omega)
    omega
  · intro b len hrun hb hle hge hlpos
    simp only [List.length_nil] at hle
    rcases m_spec with hm | ⟨e1, e2, e3, e4, e5, e6⟩
    · rw [hm]
      exact Nat.zero_le b
    · have hend : b + len ≤ s + k := by
        by_contra hcon
        push_neg at hcon
        exact run_no_prime b len (s + k) hrun hx (by omega) (by omega)
      by_cases hreg : b + len ≤ s + k - cur.length
      · exact comp_early b len hrun hb hreg hge hlpos
      · push_neg at hreg
        have hck : cur.length < k := by omega
        have hbge : s + k - cur.length ≤ b := by
          by_contra hlt
          push_neg at hlt
          have hpr := c_edge.resolve_left (by omega)
          exact run_no_prime b len (s + k - cur.length - 1) hrun hpr (by omega) (by omega)
        omega

theorem scan_inv (s k : ℕ) :
    ScanInv s k (((List.range' s k).foldl gap_step ([], [])).1)
      (((List.range' s k).foldl gap_step ([], [])).2) := by
  induction k with
  | zero => exact scan_inv_zero s
  | succ k ih =>
    rw [List.range'_1_concat, List.foldl_append, List.foldl_cons, List.foldl_nil]
    by_cases hx : isprime (s + k) = true
    · by_cases hcmp : ((List.range' s k).foldl gap_step ([], [])).1.length
          < ((List.range' s k).foldl gap_step ([], [])).2.length
      · have hstep : gap_step ((List.range' s k).foldl gap_step ([], [])) (s + k)
            = (((List.range' s k).foldl gap_step ([], [])).2, []) := by
          simp [gap_step, hx, hcmp]
        rw [hstep]
        exact scan_inv_step_prime_new s k _ _ ih hx hcmp
      · have hstep : gap_step ((List.range' s k).foldl gap_step ([], [])) (s + k)
            = (((List.range' s k).foldl gap_step ([], [])).1, []) := by
          simp [gap_step, hx, hcmp]
        rw [hstep]
        exact scan_inv_step_prime_keep s k _ _ ih hx hcmp
    · have hx' : isprime (s + k) = false := Bool.eq_false_iff.mpr hx
      have hstep : gap_step ((List.range' s k).foldl gap_step ([], [])) (s + k)
          = (((List.range' s k).foldl gap_step ([], [])).1,
              ((List.range' s k).foldl gap_step ([], [])).2 ++ [s + k]) := by
        simp [gap_step, hx']
      rw [hstep]
      exact scan_inv_step_nonprime s k _ _ ih hx'

/-- Full functional specification of the composite-run finder: the returned
run is contiguous, consists of non-primes, is maximal at both edges (bounded
by a prime or by an interval endpoint), is at least as long as every
prime-free run in the interval, and among prime-free runs of maximal length
it starts earliest. -/
theorem find_max_spec (n : ℕ) :
    (∀ x ∈ find_max_composite_gap n, isprime x = false)
      ∧ (find_max_composite_gap n = [] ∨
          (find_max_composite_gap n
              = List.range' (find_max_composite_gap n).headI
                  (find_max_composite_gap n).length
            ∧ (n - 1) ^ 2 ≤ (find_max_composite_gap n).headI
            ∧ (find_max_composite_gap n).headI + (find_max_composite_gap n).length
                ≤ n ^ 2 + 1
            ∧ ((find_max_composite_gap n).headI = (n - 1) ^ 2
                ∨ isprime ((find_max_composite_gap n).headI - 1) = true)
            ∧ ((find_max_composite_gap n).headI + (find_max_composite_gap n).length
                  = n ^ 2 + 1
                ∨ isprime ((find_max_composite_gap n).headI
                    + (find_max_composite_gap n).length) = true)))
      ∧ (∀ b len : ℕ, (∀ i, i < len → isprime (b + i) = false) →
          (n - 1) ^ 2 ≤ b → b + len ≤ n ^ 2 + 1 →
          len ≤ (find_max_composite_gap n).length)
      ∧ (∀ b len : ℕ, (∀ i, i < len → isprime (b + i) = false) →
          (n - 1) ^ 2 ≤ b → b + len ≤ n ^ 2 + 1 →
          len = (find_max_composite_gap n).length → 0 < len →
          (find_max_composite_gap n).headI ≤ b) := by
  have hse : (n - 1) ^ 2 ≤ n ^ 2 := Nat.pow_le_pow_left (by omega) 2
  have hsN : (n - 1) ^ 2 + (n ^ 2 + 1 - (n - 1) ^ 2) = n ^ 2 + 1 := by omega
  have hinv := scan_inv ((n - 1) ^ 2) (n ^ 2 + 1 - (n - 1) ^ 2)
  obtain ⟨c_eq, c_le, c_np, c_edge, m_spec, long, comp_long, comp_early⟩ := hinv
  have hss : (List.range' ((n - 1) ^ 2) (n ^ 2 + 1 - (n - 1) ^ 2)).foldl gap_step ([], [])
      = scan_state n := rfl
  rw [hss] at c_eq c_le c_np c_edge m_spec long comp_long comp_early
  rw [hsN] at c_eq c_edge m_spec long comp_long comp_early
  by_cases hcmp : (scan_state n).1.length < (scan_state n).2.length
  · have hg : find_max_composite_gap n = (scan_state n).2 := by
      rw [find_max_composite_gap, if_pos hcmp]
    have hpos : 0 < (scan_state n).2.length := by omega
    have hhead : (scan_state n).2.headI
        = n ^ 2 + 1 - (scan_state n).2.length := by
      conv_lhs => rw [c_eq]
      rw [headI_range' _ _ hpos]
    rw [hg]
    refine ⟨c_np, Or.inr ⟨?_, ?_, ?_, ?_, ?_⟩, ?_, ?_⟩
    · rw [hhead]
      exact c_eq
    · rw [hhead]
      omega
    · rw [hhead]
      omega
    · rcases c_edge with hck | hpr
      · left
        rw [hhead]
        omega
      · right
        rw [hhead]
        exact hpr
    · left
      rw [hhead]
      omega
    · intro b len hrun hb hle
      have hlong := long b len hrun hb (by omega)
      have hmax : max (scan_state n).1.length (scan_state n).2.length
          = (scan_state n).2.length := Nat.max_eq_right (by omega)
      omega
    · intro b len hrun hb hle hlen hlpos
      rw [hhead]
      by_contra hlt
      push_neg at hlt
      by_cases hreg : b + len ≤ n ^ 2 + 1 - (scan_state n).2.length
      · have := comp_long b len hrun hb hreg
        omega
      · push_neg at hreg
        have hcnek : (scan_state n).2.length ≠ n ^ 2 + 1 - (n - 1) ^ 2 := by
          intro hck
          rw [hck] at hlt
          omega
        have hpr := c_edge.resolve_left hcnek
        exact run_no_prime b len (n ^ 2 + 1 - (scan_state n).2.length - 1) hrun hpr
          (by omega) (by omega)
  · have hg : find_max_composite_gap n = (scan_state n).1 := by
      rw [find_max_composite_gap, if_neg hcmp]
    rw [hg]
    rcases m_spec with hm | ⟨e1, e2, e3, e4, e5, e6⟩
    · refine ⟨?_, Or.inl hm, ?_, ?_⟩
      · intro x hxm
        rw [hm] at hxm
        cases hxm
      · intro b len hrun hb hle
        have hlong := long b len hrun hb (by omega)
        have hmax : max (scan_state n).1.length (scan_state n).2.length
            = (scan_state n).1.length := Nat.max_eq_left (by omega)
        omega
      · intro b len hrun hb hle hlen hlpos
        rw [hm] at hlen
        simp at hlen
        omega
    · refine ⟨e4, Or.inr ⟨e1, e2, by omega, e5, Or.inr e6⟩, ?_, ?_⟩
      · intro b len hrun hb hle
        have hlong := long b len hrun hb (by omega)
        have hmax : max (scan_state n).1.length (scan_state n).2.length
            = (scan_state n).1.length := Nat.max_eq_left (by omega)
        omega
      · intro b len hrun hb hle hlen hlpos
        by_cases hreg : b + len ≤ n ^ 2 + 1 - (scan_state n).2.length
        · exact comp_early b len hrun hb hreg (by omega) hlpos
        · push_neg at hreg
          have hbge : n ^ 2 + 1 - (scan_state n).2.length ≤ b := by
            by_contra hlt
            push_neg at hlt
            have hpr := c_edge.resolve_left (by omega)
            exact run_no_prime b len (n ^ 2 + 1 - (scan_state n).2.length - 1) hrun hpr
              (by omega) (by omega)
          omega

theorem sq_not_prime (m : ℕ) : ¬(m ^ 2).Prime := by
  intro hp
  rcases Nat.lt_or_ge m 2 with hm | hm
  · interval_cases m
    · rw [show (0 : ℕ) ^ 2 = 0 by norm_num] at hp
      exact Nat.not_prime_zero hp
    · rw [show (1 : ℕ) ^ 2 = 1 by norm_num] at hp
      exact Nat.not_prime_one hp
  · have hdvd : m ∣ m ^ 2 := Dvd.intro m (by ring)
    rcases hp.eq_one_or_self_of_dvd m hdvd with h1 | h2
    · omega
    · have hmul : m ^ 2 = m * m := by ring
      have h2m : 2 * m ≤ m * m := Nat.mul_le_mul_right m hm
      omega

/-- Counterexample to C2 as stated: at `n = 2` the returned run is `[1]`,
whose single member 1 is not a composite number. -/
theorem C2_counterexample :
    find_max_composite_gap 2 = [1]
      ∧ (1 : ℕ) ∈ find_max_composite_gap 2
      ∧ ¬IsComposite 1 := by
  refine ⟨by decide, by decide, ?_⟩
  intro h
  exact absurd h.1 (by omega)

/-- C2 amended: for every `n ≥ 2`, every member of the run returned by
`find_max_composite_gap` on `[(n-1)^2, n^2]` is non-prime (hence composite
whenever it exceeds 1), and the run is maximal: the integer immediately
before its first element and immediately after its last element, when they
lie within the interval bounds, are prime (or the run touches an interval
boundary). -/
theorem C2_members_maximal (n : ℕ) (hn : 2 ≤ n) :
    (∀ x ∈ find_max_composite_gap n, ¬x.Prime)
      ∧ (∀ x ∈ find_max_composite_gap n, 2 ≤ x → IsComposite x)
      ∧ (find_max_composite_gap n = [] ∨
          (∃ a : ℕ, find_max_composite_gap n
              = List.range' a (find_max_composite_gap n).length
            ∧ (n - 1) ^ 2 ≤ a
            ∧ a + (find_max_composite_gap n).length ≤ n ^ 2 + 1
            ∧ (a = (n - 1) ^ 2 ∨ (a - 1).Prime)
            ∧ (a + (find_max_composite_gap n).length = n ^ 2 + 1
                ∨ (a + (find_max_composite_gap n).length).Prime))) := by
  obtain ⟨hnp, hmax, hlong, hearly⟩ := find_max_spec n
  have hnotp : ∀ x ∈ find_max_composite_gap n, ¬x.Prime := by
    intro x hx hpr
    have hfalse := hnp x hx
    rw [(isprime_iff x).mpr hpr] at hfalse
    cases hfalse
  refine ⟨hnotp, fun x hx h2 => ⟨h2, hnotp x hx⟩, ?_⟩
  rcases hmax with hm | ⟨e1, e2, e3, e4, e5⟩
  · exact Or.inl hm
  · refine Or.inr ⟨(find_max_composite_gap n).headI, e1, e2, e3, ?_, ?_⟩
    · rcases e4 with h | h
      · exact Or.inl h
      · exact Or.inr ((isprime_iff _).mp h)
    · rcases e5 with h | h
      · exact Or.inl h
      · exact Or.inr ((isprime_iff _).mp h)

/-- Witness for C2 (amended) at the concrete input `n = 3`. -/
theorem C2_members_maximal_witness :
    (∀ x ∈ find_max_composite_gap 3, ¬x.Prime)
      ∧ (∀ x ∈ find_max_composite_gap 3, 2 ≤ x → IsComposite x)
      ∧ (find_max_composite_gap 3 = [] ∨
          (∃ a : ℕ, find_max_composite_gap 3
              = List.range' a (find_max_composite_gap 3).length
            ∧ (3 - 1) ^ 2 ≤ a
            ∧ a + (find_max_composite_gap 3).length ≤ 3 ^ 2 + 1
            ∧ (a = (3 - 1) ^ 2 ∨ (a - 1).Prime)
            ∧ (a + (find_max_composite_gap 3).length = 3 ^ 2 + 1
                ∨ (a + (find_max_composite_gap 3).length).Prime))) :=
  C2_members_maximal 3 (by omega)

/-- C5: the scan keeps the best run only on strict length improvement and
performs one final comparison after the pass, so the returned run is at
least as long as every prime-free run in `[(n-1)^2, n^2]` (runs ending
exactly at `n^2` included), and among prime-free runs of the returned
length the returned run is the earliest-occurring one. -/
theorem C5_earliest_longest (n : ℕ) (hn : 2 ≤ n) :
    ∀ b len : ℕ, (∀ i, i < len → ¬(b + i).Prime) →
      (n - 1) ^ 2 ≤ b → b + len ≤ n ^ 2 + 1 →
      len ≤ (find_max_composite_gap n).length
        ∧ (len = (find_max_composite_gap n).length → 0 < len →
            (find_max_composite_gap n).headI ≤ b) := by
  obtain ⟨hnp, hmax, hlong, hearly⟩ := find_max_spec n
  intro b len hrun hb hle
  have hrun2 : ∀ i, i < len → isprime (b + i) = false := fun i hi =>
    Bool.eq_false_iff.mpr fun ht => hrun i hi ((isprime_iff _).mp ht)
  exact ⟨hlong b len hrun2 hb hle, fun hlen hpos => hearly b len hrun2 hb hle hlen hpos⟩

/-- Witness for C5 at the concrete input `n = 3` with the run `{8, 9}`. -/
theorem C5_earliest_longest_witness :
    8 + 2 ≤ 3 ^ 2 + 1
      ∧ (2 ≤ (find_max_composite_gap 3).length
          ∧ (2 = (find_max_composite_gap 3).length → 0 < 2 →
              (find_max_composite_gap 3).headI ≤ 8)) :=
  ⟨by omega, C5_earliest_longest 3 (by omega) 8 2
    (by decide) (by omega) (by omega)⟩

/-! ## Radical and volume lemmas -/

theorem mem_all_primes_aux (cs : List ℕ) (acc : Finset ℕ) (q : ℕ) :
    (q ∈ cs.foldl (fun s c => s ∪ factorint_keys c) acc)
      ↔ q ∈ acc ∨ ∃ c ∈ cs, q ∈ factorint_keys c := by
  induction cs generalizing acc with
  | nil => simp
  | cons c t ih =>
    rw [List.foldl_cons, ih]
    simp only [Finset.mem_union, List.mem_cons]
    constructor
    · rintro (⟨h | h⟩ | ⟨x, hx, hq⟩)
      · exact Or.inl h
      · exact Or.inr ⟨c, Or.inl rfl, h⟩
      · exact Or.inr ⟨x, Or.inr hx, hq⟩
    · rintro (h | ⟨x, rfl | hx, hq⟩)
      · exact Or.inl (Or.inl h)
      · exact Or.inl (Or.inr hq)
      · exact Or.inr ⟨x, hx, hq⟩

theorem mem_all_primes (cs : List ℕ) (q : ℕ) :
    q ∈ all_primes cs ↔ ∃ c ∈ cs, q ∈ factorint_keys c := by
  rw [all_primes, mem_all_primes_aux]
  simp

theorem all_primes_prime (cs : List ℕ) (q : ℕ) (hq : q ∈ all_primes cs) : q.Prime := by
  obtain ⟨c, _, hqc⟩ := (mem_all_primes cs q).mp hq
  exact Nat.prime_of_mem_primeFactors hqc

theorem all_primes_eq (cs : List ℕ) (h0 : ∀ c ∈ cs, c ≠ 0) :
    all_primes cs = (cs.prod).primeFactors := by
  ext q
  rw [mem_all_primes]
  simp only [factorint_keys, Nat.mem_primeFactors]
  constructor
  · rintro ⟨c, hc, hqp, hdvd, _⟩
    refine ⟨hqp, hdvd.trans (List.dvd_prod hc), ?_⟩
    rw [Ne, List.prod_eq_zero_iff]
    intro h0m
    exact h0 0 h0m rfl
  · rintro ⟨hqp, hdvd, _⟩
    obtain ⟨c, hc, hqc⟩ := hqp.prime.dvd_prod_iff.mp hdvd
    exact ⟨c, hc, hqp, hqc, h0 c hc⟩

theorem sum_log_eq (t : List ℕ) (h0 : ∀ c ∈ t, c ≠ 0) :
    (t.map fun c : ℕ => Real.log c).sum = Real.log ((t.prod : ℕ) : ℝ) := by
  induction t with
  | nil => simp
  | cons c ts ih =>
    rw [List.map_cons, List.sum_cons, List.prod_cons,
      ih fun x hx => h0 x (List.mem_cons_of_mem c hx)]
    have hc : (c : ℝ) ≠ 0 := Nat.cast_ne_zero.mpr (h0 c (List.mem_cons_self c ts))
    have ht : ((ts.prod : ℕ) : ℝ) ≠ 0 := by
      rw [Nat.cast_ne_zero, Ne, List.prod_eq_zero_iff]
      intro hm
      exact h0 0 (List.mem_cons_of_mem c hm) rfl
    rw [Nat.cast_mul, Real.log_mul hc ht]

theorem log_volume_eq (cs : List ℕ) (h0 : ∀ c ∈ cs, c ≠ 0) :
    log_volume cs = Real.log ((cs.prod : ℕ) : ℝ) :=
  sum_log_eq cs h0

theorem log_radical_eq (cs : List ℕ) :
    log_radical cs = Real.log (((∏ q ∈ all_primes cs, q : ℕ) : ℕ) : ℝ) := by
  rw [log_radical, ← Real.log_prod _ _ fun q hq =>
    Nat.cast_ne_zero.mpr (all_primes_prime cs q hq).ne_zero, Nat.cast_prod]

theorem log_radical_pos (cs : List ℕ) (hne : cs ≠ []) (hgt : ∀ c ∈ cs, 1 < c) :
    0 < log_radical cs := by
  obtain ⟨c, hc⟩ := List.exists_mem_of_ne_nil cs hne
  have hcp : (factorint_keys c).Nonempty := Nat.nonempty_primeFactors.mpr (hgt c hc)
  obtain ⟨q, hq⟩ := hcp
  rw [log_radical]
  apply Finset.sum_pos
  · intro p hp
    apply Real.log_pos
    exact_mod_cast (all_primes_prime cs p hp).one_lt
  · exact ⟨q, (mem_all_primes cs q).mpr ⟨c, hc, hq⟩⟩

/-- Counterexample to C3 as stated: at `n = 2` the run finder returns the
non-empty run `[1]`, yet `log_radical` is 0 (the number 1 has no prime
factor), so the infinity sentinel occurs on a non-empty run. -/
theorem C3_counterexample :
    find_max_composite_gap 2 ≠ []
      ∧ log_radical (find_max_composite_gap 2) = 0
      ∧ compute_wronskian (find_max_composite_gap 2)
          = some (log_volume (find_max_composite_gap 2), 0, QW.inf) := by
  have hg : find_max_composite_gap 2 = [1] := by decide
  have hap : all_primes [1] = ∅ := by
    rw [all_primes]
    simp [factorint_keys]
  have hlr : log_radical [1] = 0 := by
    rw [log_radical, hap]
    simp
  rw [hg]
  refine ⟨by simp, hlr, ?_⟩
  simp only [compute_wronskian]
  rw [if_neg (by simp), hlr, if_neg (by norm_num)]

/-- C3 amended: the sentinel occurs only for the degenerate run `[1]` of
`n = 2` (the only run whose members do not exceed 1); for every `n ≥ 3` the
run returned by the Composite Run Finder is non-empty, its `log_radical` is
strictly positive, and the computed ratio is the ordinary real quotient. -/
theorem C3_sentinel_only_degenerate (n : ℕ) (hn : 3 ≤ n) :
    find_max_composite_gap n ≠ []
      ∧ 0 < log_radical (find_max_composite_gap n)
      ∧ compute_wronskian (find_max_composite_gap n)
          = some (log_volume (find_max_composite_gap n),
              log_radical (find_max_composite_gap n),
              QW.val (log_volume (find_max_composite_gap n)
                / log_radical (find_max_composite_gap n))) := by
  obtain ⟨hnp, hmax, hlong, hearly⟩ := find_max_spec n
  have hsq : isprime ((n - 1) ^ 2) = false :=
    Bool.eq_false_iff.mpr fun ht => sq_not_prime (n - 1) ((isprime_iff _).mp ht)
  have hse : (n - 1) ^ 2 ≤ n ^ 2 := Nat.pow_le_pow_left (by omega) 2
  have h1 : 1 ≤ (find_max_composite_gap n).length := by
    apply hlong ((n - 1) ^ 2) 1 ?_ (Nat.le_refl _) (by omega)
    intro i hi
    interval_cases i
    simpa using hsq
  have hne : find_max_composite_gap n ≠ [] := by
    intro h
    rw [h] at h1
    simp at h1
  have hmem : ∀ x ∈ find_max_composite_gap n, 1 < x := by
    rcases hmax with hm | ⟨e1, e2, e3, e4, e5⟩
    · exact absurd hm hne
    · intro x hx
      rw [e1, List.mem_range'_1] at hx
      have h4 : 2 ^ 2 ≤ (n - 1) ^ 2 := Nat.pow_le_pow_left (by omega) 2
      omega
  have hlr := log_radical_pos _ hne hmem
  refine ⟨hne, hlr, ?_⟩
  simp only [compute_wronskian]
  rw [if_neg hne, if_pos hlr]

/-- Witness for C3 (amended) at the concrete input `n = 3`. -/
theorem C3_sentinel_only_degenerate_witness :
    find_max_composite_gap 3 ≠ []
      ∧ 0 < log_radical (find_max_composite_gap 3)
      ∧ compute_wronskian (find_max_composite_gap 3)
          = some (log_volume (find_max_composite_gap 3),
              log_radical (find_max_composite_gap 3),
              QW.val (log_volume (find_max_composite_gap 3)
                / log_radical (find_max_composite_gap 3))) :=
  C3_sentinel_only_degenerate 3 (by omega)

/-- C4: for every non-empty run of positive integers, the product of the
distinct primes dividing any member divides, and is at most, the product of
the members; hence `log_radical ≤ log_volume` and, whenever the radical is
non-trivial, the returned ratio `q_W` is at least 1. -/
theorem C4_radical_le_volume (cs : List ℕ) (hne : cs ≠ []) (hpos : ∀ c ∈ cs, 0 < c) :
    (∏ q ∈ all_primes cs, q) ∣ cs.prod
      ∧ (∏ q ∈ all_primes cs, q) ≤ cs.prod
      ∧ log_radical cs ≤ log_volume cs
      ∧ (0 < log_radical cs → 1 ≤ log_volume cs / log_radical cs) := by
  have h0 : ∀ c ∈ cs, c ≠ 0 := fun c hc => (hpos c hc).ne'
  have hdvd : (∏ q ∈ all_primes cs, q) ∣ cs.prod := by
    rw [all_primes_eq cs h0]
    exact Nat.prod_primeFactors_dvd _
  have hprodpos : 0 < cs.prod := List.prod_pos hpos
  have hle : (∏ q ∈ all_primes cs, q) ≤ cs.prod := Nat.le_of_dvd hprodpos hdvd
  have hradpos : 0 < ∏ q ∈ all_primes cs, q :=
    Finset.prod_pos fun q hq => (all_primes_prime cs q hq).pos
  have hlog : log_radical cs ≤ log_volume cs := by
    rw [log_radical_eq, log_volume_eq cs h0]
    exact Real.log_le_log (by exact_mod_cast hradpos) (by exact_mod_cast hle)
  exact ⟨hdvd, hle, hlog, fun hlr => (one_le_div hlr).mpr hlog⟩

/-- Witness for C4 at the concrete run `[4, 6]`. -/
theorem C4_radical_le_volume_witness :
    (∏ q ∈ all_primes [4, 6], q) ∣ ([4, 6] : List ℕ).prod
      ∧ (∏ q ∈ all_primes [4, 6], q) ≤ ([4, 6] : List ℕ).prod
      ∧ log_radical [4, 6] ≤ log_volume [4, 6]
      ∧ (0 < log_radical [4, 6] → 1 ≤ log_volume [4, 6] / log_radical [4, 6]) :=
  C4_radical_le_volume [4, 6] (by simp) (by decide)

/-- C9: `compute_wronskian` is total with an exhaustive guard: the empty list
(and only the empty list) returns the `(None, None, None)` triple, and every
non-empty list returns a triple whose ratio is the ordinary quotient when
`log_radical > 0` and the infinity sentinel otherwise — no input reaches an
unguarded division. -/
theorem C9_total_guarded (cs : List ℕ) :
    (compute_wronskian cs = none ↔ cs = [])
      ∧ ((cs = [] ∧ compute_wronskian cs = none)
        ∨ (0 < log_radical cs
            ∧ compute_wronskian cs = some (log_volume cs, log_radical cs,
                QW.val (log_volume cs / log_radical cs)))
        ∨ (cs ≠ [] ∧ log_radical cs ≤ 0
            ∧ compute_wronskian cs = some (log_volume cs, log_radical cs, QW.inf))) := by
  by_cases hcs : cs = []
  · subst hcs
    refine ⟨?_, Or.inl ⟨rfl, ?_⟩⟩ <;> simp [compute_wronskian]
  · have hsome : compute_wronskian cs
        = some (log_volume cs, log_radical cs,
            if 0 < log_radical cs then
              QW.val (log_volume cs / log_radical cs)
            else QW.inf) := by
      simp only [compute_wronskian]
      rw [if_neg hcs]
    have hiff : compute_wronskian cs = none ↔ cs = [] := by
      rw [hsome]
      simp [hcs]
    refine ⟨hiff, ?_⟩
    by_cases hlr : 0 < log_radical cs
    · refine Or.inr (Or.inl ⟨hlr, ?_⟩)
      rw [hsome, if_pos hlr]
    · refine Or.inr (Or.inr ⟨hcs, not_lt.mp hlr, ?_⟩)
      rw [hsome, if_neg hlr]

/-- C10: the two radical computations agree: for every non-empty list of
integers greater than 1, `dual_weapon`'s `compute_radical` applied to the
full product equals the product of the union of distinct prime factors
collected member by member, and both yield the same exact `log_radical`. -/
theorem C10_radicals_agree (cs : List ℕ) (hne : cs ≠ []) (hgt : ∀ c ∈ cs, 1 < c) :
    compute_radical cs.prod = ∏ q ∈ all_primes cs, q
      ∧ Real.log ((compute_radical cs.prod : ℕ) : ℝ) = log_radical cs := by
  have h0 : ∀ c ∈ cs, c ≠ 0 := fun c hc => by
    have := hgt c hc
    omega
  have hprod : 1 < cs.prod := by
    obtain ⟨c, t, rfl⟩ := List.exists_cons_of_ne_nil hne
    rw [List.prod_cons]
    have hc := hgt c (List.mem_cons_self c t)
    have ht : 0 < t.prod := List.prod_pos fun x hx => by
      have := hgt x (List.mem_cons_of_mem c hx)
      omega
    calc 1 < c := hc
    _ ≤ c * t.prod := Nat.le_mul_of_pos_right c ht
  have heq : compute_radical cs.prod = ∏ q ∈ all_primes cs, q := by
    rw [compute_radical, if_neg (by omega), factorint_keys, all_primes_eq cs h0]
  refine ⟨heq, ?_⟩
  rw [heq, ← log_radical_eq]

/-- Witness for C10 at the concrete run `[4, 6]` (product 24, radical 6). -/
theorem C10_radicals_agree_witness :
    compute_radical ([4, 6] : List ℕ).prod = ∏ q ∈ all_primes [4, 6], q
      ∧ Real.log ((compute_radical ([4, 6] : List ℕ).prod : ℕ) : ℝ)
          = log_radical [4, 6] :=
  C10_radicals_agree [4, 6] (by simp) (by decide)

end LegendreSpin
